import Mathlib

/-!
Shallow embedding of the core logic of `src/App.jsx` (grievance dashboard):
the key normalizer, the severity classifier, the two-pass region aggregator
`statsByBlock`, the key-indexed lookup / selection resolution, the centroid
estimator `mapCenter`, and the polygon click handler's key computation.

Modelling conventions:
- JS strings are `String`; an absent (`undefined`/`null`) string is `none`.
- Numbers that the code only adds, divides and compares are `Rat`
  (coordinates) or `Nat` (counts); JS float rounding is out of scope.
- The insertion-ordered JS `Map` is an association list of entries in
  insertion order; `map.get(key)` mutation is `updateEntry`, which rewrites
  the first (in the program: the unique) entry with that key.
- `Array.prototype.sort` with a consistent comparator returns a sorted
  permutation of its input; it is modelled by `List.mergeSort` with the
  boolean version of the same comparator.
- `String.prototype.localeCompare` is a host collation; it is modelled by
  `localeCompare` below, a total three-way comparison by code-point order.
-/

namespace Hitmap

/-- A grievance record (`complaints` entries in `src/data`): id, free-text
block name (absent allowed), description, coordinates. -/
structure Complaint where
  id : Nat
  block : Option String
  grievance : String
  lat : Rat
  lng : Rat
deriving Repr, DecidableEq

/-- A boundary feature: its `properties` map (absent allowed) from property
names to string values. Geometry is irrelevant to the core and omitted. -/
structure Feature where
  properties : Option (List (String × String))
deriving Repr, DecidableEq

/-- The boundary dataset: a feature collection that may be absent. -/
structure GeoJson where
  features : Option (List Feature)
deriving Repr, DecidableEq

/-- One aggregated entry of `statsByBlock` (App.jsx lines 58-68). -/
structure BlockStat where
  key : String
  label : String
  total : Nat
  complaints : List Complaint
deriving Repr, DecidableEq

/-- Severity thresholds (App.jsx lines 16-19). -/
structure Thresholds where
  lowMax : Nat
  mediumMax : Nat
deriving Repr, DecidableEq

def thresholds : Thresholds := { lowMax := 3, mediumMax := 5 }

/-- `getSeverity` (App.jsx lines 21-25). -/
def getSeverity (count : Nat) : String :=
  if count ≤ thresholds.lowMax then "low"
  else if count ≤ thresholds.mediumMax then "medium"
  else "high"

/-- The GeoJSON property holding the block name (App.jsx line 28). -/
def BLOCK_NAME_PROP : String := "block_name"

/-- Model of `String.prototype.trim`: drop leading and trailing whitespace
from the code-point list. -/
def jsTrim (s : String) : String :=
  ⟨((s.data.dropWhile Char.isWhitespace).reverse.dropWhile Char.isWhitespace).reverse⟩

/-- Model of `String.prototype.toLowerCase`: lower-case each code point. -/
def jsToLowerCase (s : String) : String :=
  ⟨s.data.map Char.toLower⟩

/-- `normalizeBlockName` (App.jsx lines 31-33): `(name || "").trim().toLowerCase()`. -/
def normalizeBlockName (name : Option String) : String :=
  jsToLowerCase (jsTrim (name.getD ""))

/-- `f.properties?.[BLOCK_NAME_PROP]` (App.jsx line 74). -/
def getBlockNameProp (f : Feature) : Option String :=
  match f.properties with
  | none => none
  | some props => props.lookup BLOCK_NAME_PROP

/-- `blocksGeoJson?.features || []` (App.jsx line 72). -/
def getFeatures (g : Option GeoJson) : List Feature :=
  match g with
  | none => []
  | some gj => gj.features.getD []

/-- `map.has(key)` on the insertion-ordered entry list. -/
def hasKey (m : List BlockStat) (key : String) : Bool :=
  m.any (fun e => e.key == key)

/-- Mutation of the entry `map.get(key)`: rewrite the first entry holding
`key` (the JS `Map` holds at most one). -/
def updateEntry (m : List BlockStat) (key : String) (f : BlockStat → BlockStat) :
    List BlockStat :=
  match m with
  | [] => []
  | e :: rest => if e.key = key then f e :: rest else e :: updateEntry rest key f

/-- Pass 1 body (App.jsx lines 54-69): skip an empty key, create the entry
if absent (label = the record's raw block name), then push the record and
increment `total`. -/
def pass1Step (m : List BlockStat) (c : Complaint) : List BlockStat :=
  let key := normalizeBlockName c.block
  if key = "" then m
  else
    let m1 := if hasKey m key then m
      else m ++ [{ key := key, label := c.block.getD "", total := 0, complaints := [] }]
    updateEntry m1 key
      (fun e => { e with total := e.total + 1, complaints := e.complaints ++ [c] })

/-- Pass 2 body (App.jsx lines 73-91): skip an empty key; create a zero-total
entry when the key is new (`label: rawName || "Unknown block"`); otherwise
overwrite the label with the raw name when that raw name is truthy. -/
def pass2Step (m : List BlockStat) (f : Feature) : List BlockStat :=
  let rawName := (getBlockNameProp f).getD ""
  let key := normalizeBlockName (getBlockNameProp f)
  if key = "" then m
  else if hasKey m key then
    if rawName ≠ "" then updateEntry m key (fun e => { e with label := rawName }) else m
  else
    m ++ [{ key := key, label := if rawName ≠ "" then rawName else "Unknown block",
            total := 0, complaints := [] }]

/-- Model of `a.localeCompare(b)`: a total three-way comparison, by
code-point order. -/
def localeCompare (a b : String) : Int :=
  if a < b then -1 else if b < a then 1 else 0

/-- The sort comparator (App.jsx line 95):
`(a, b) => b.total - a.total || a.label.localeCompare(b.label)`. -/
def compareStats (a b : BlockStat) : Int :=
  if ((b.total : Int) - (a.total : Int)) ≠ 0 then (b.total : Int) - (a.total : Int)
  else localeCompare a.label b.label

/-- The comparator as a boolean "less or equal" for sorting. -/
def statLe (a b : BlockStat) : Bool :=
  decide (compareStats a b ≤ 0)

/-- The order required of adjacent output entries: total strictly
descending, or equal totals with labels ascending under the locale
comparison. -/
def adjacentOrdered (a b : BlockStat) : Prop :=
  a.total > b.total ∨ (a.total = b.total ∧ localeCompare a.label b.label ≤ 0)

/-- `statsByBlock` (App.jsx lines 50-97): pass 1 over complaints, pass 2 over
boundary features, then sort by total descending with label ties ascending. -/
def statsByBlock (complaints : List Complaint) (blocksGeoJson : Option GeoJson) :
    List BlockStat :=
  let m := complaints.foldl pass1Step []
  let m2 := (getFeatures blocksGeoJson).foldl pass2Step m
  m2.mergeSort statLe

/-- The key-indexed lookup view `statsMap` (App.jsx lines 103-109): a JS
object written by `forEach`, so a later entry with the same key overwrites an
earlier one — lookup finds the last match. -/
def statsMapLookup (l : List BlockStat) (key : String) : Option BlockStat :=
  l.reverse.find? (fun e => e.key == key)

/-- `selected` (App.jsx line 111):
`selectedBlockKey ? statsMap[selectedBlockKey] || null : null`.
`none` is JS `null`; the empty string is falsy like `null`. -/
def selectedStat (l : List BlockStat) (selectedBlockKey : Option String) :
    Option BlockStat :=
  match selectedBlockKey with
  | none => none
  | some k => if k = "" then none else statsMapLookup l k

/-- `mapCenter` (App.jsx lines 114-125): the fixed fallback for no
complaints, else the mean of the coordinates via a left fold. -/
def mapCenter (complaints : List Complaint) : Rat × Rat :=
  if complaints.length = 0 then ((20.65 : Rat), (85.6 : Rat))
  else
    let sum := complaints.foldl (fun acc c => (acc.1 + c.lat, acc.2 + c.lng))
      ((0 : Rat), (0 : Rat))
    (sum.1 / (complaints.length : Rat), sum.2 / (complaints.length : Rat))

/-- The key stored by the polygon click handler (App.jsx lines 153-165):
`normalizeBlockName(feature.properties?.[BLOCK_NAME_PROP] || "")`. -/
def onEachFeatureClickKey (f : Feature) : String :=
  normalizeBlockName (some ((getBlockNameProp f).getD ""))

/-- The sum of `total` over the entries of a table. -/
def sumTotal (l : List BlockStat) : Nat :=
  (l.map (fun e => e.total)).sum

/-- The keys of a table, in order. -/
def keysOf (m : List BlockStat) : List String :=
  m.map (fun e => e.key)

/-- The invariant the aggregation table keeps relative to the already
processed complaints `cs`: keys are distinct and non-empty, labels are
non-empty, each entry holds exactly the complaints normalizing to its key
(in input order) with `total` their count, and every processed complaint
with a non-empty key has an entry. -/
def Inv (cs : List Complaint) (m : List BlockStat) : Prop :=
  (keysOf m).Nodup ∧
  (∀ e ∈ m, e.key ≠ "" ∧ e.label ≠ "" ∧
    e.complaints = cs.filter (fun c => decide (normalizeBlockName c.block = e.key)) ∧
    e.total = e.complaints.length) ∧
  (∀ c ∈ cs, normalizeBlockName c.block ≠ "" →
    ∃ e ∈ m, e.key = normalizeBlockName c.block)

/-- Pass 2 with the `"Unknown block"` fallback removed from the creation
branch, for stating that the fallback is unreachable. -/
def pass2StepNF (m : List BlockStat) (f : Feature) : List BlockStat :=
  let rawName := (getBlockNameProp f).getD ""
  let key := normalizeBlockName (getBlockNameProp f)
  if key = "" then m
  else if hasKey m key then
    if rawName ≠ "" then updateEntry m key (fun e => { e with label := rawName }) else m
  else
    m ++ [{ key := key, label := rawName, total := 0, complaints := [] }]

/-- The aggregator with the fallback-free pass 2. -/
def statsByBlockNF (complaints : List Complaint) (blocksGeoJson : Option GeoJson) :
    List BlockStat :=
  let m := complaints.foldl pass1Step []
  let m2 := (getFeatures blocksGeoJson).foldl pass2StepNF m
  m2.mergeSort statLe

/-! ### General lemmas about the embedded operations -/

/-- `hasKey` is the existence of an entry with that key. -/
theorem hasKey_iff {m : List BlockStat} {key : String} :
    hasKey m key = true ↔ ∃ e ∈ m, e.key = key := by
  simp [hasKey]

/-- `updateEntry` with a key-preserving updater rewrites the first matching
entry, as seen by `find?`. -/
theorem find?_updateEntry (m : List BlockStat) (key : String)
    (g : BlockStat → BlockStat) (hg : ∀ e, (g e).key = e.key) :
    (updateEntry m key g).find? (fun x => x.key == key) =
      (m.find? (fun x => x.key == key)).map g := by
  induction m with
  | nil => rfl
  | cons e rest ih =>
    by_cases he : e.key = key
    · rw [updateEntry, if_pos he]
      simp [hg, he]
    · rw [updateEntry, if_neg he]
      simp [he, ih]

/-- The raw name is non-empty whenever its normalization is. -/
theorem raw_ne_of_normalize_ne {o : Option String}
    (h : normalizeBlockName o ≠ "") : o.getD "" ≠ "" := by
  intro he
  apply h
  unfold normalizeBlockName
  rw [he]
  rfl

/-! ### C1: pass-2 label precedence -/

/-- C1: in pass 2, a boundary feature whose normalized name is the key of an
existing entry overwrites that entry's label with the feature's raw name
whenever the raw name is non-empty; nothing else about the entry changes. -/
theorem pass2_label_overwrite (m : List BlockStat) (f : Feature) (e : BlockStat)
    (hraw : (getBlockNameProp f).getD "" ≠ "")
    (hk : normalizeBlockName (getBlockNameProp f) ≠ "")
    (he : m.find? (fun x => x.key == normalizeBlockName (getBlockNameProp f)) = some e) :
    (pass2Step m f).find? (fun x => x.key == normalizeBlockName (getBlockNameProp f)) =
      some { e with label := (getBlockNameProp f).getD "" } := by
  have hhas : hasKey m (normalizeBlockName (getBlockNameProp f)) = true := by
    refine hasKey_iff.mpr ⟨e, List.mem_of_find?_eq_some he, ?_⟩
    simpa using List.find?_some he
  unfold pass2Step
  rw [if_neg hk, if_pos hhas, if_pos hraw]
  rw [find?_updateEntry m (normalizeBlockName (getBlockNameProp f))
    (fun e => { e with label := (getBlockNameProp f).getD "" }) (fun _ => rfl), he]
  rfl

/-- Witness for C1: the record with block `"sadar"` plus the feature named
`"Sadar"` yield the label `"Sadar"`. -/
theorem pass2_label_overwrite_witness :
    (pass2Step (pass1Step [] ⟨1, some "sadar", "water", 0, 0⟩)
        ⟨some [("block_name", "Sadar")]⟩).find?
      (fun x => x.key ==
        normalizeBlockName (getBlockNameProp ⟨some [("block_name", "Sadar")]⟩)) =
      some ⟨"sadar", "Sadar", 1, [⟨1, some "sadar", "water", 0, 0⟩]⟩ :=
  pass2_label_overwrite _ _ ⟨"sadar", "sadar", 1, [⟨1, some "sadar", "water", 0, 0⟩]⟩
    (by decide) (by decide) (by decide)

/-! ### C5: severity classification -/

/-- C5: the severity classifier is total on naturals with inclusive
thresholds, no overlap and no gap: `n ≤ 3` is exactly `"low"`,
`4 ≤ n ≤ 5` exactly `"medium"`, `6 ≤ n` exactly `"high"`. -/
theorem getSeverity_classification (n : Nat) :
    (getSeverity n = "low" ↔ n ≤ 3) ∧
    (getSeverity n = "medium" ↔ 4 ≤ n ∧ n ≤ 5) ∧
    (getSeverity n = "high" ↔ 6 ≤ n) ∧
    (getSeverity n = "low" ∨ getSeverity n = "medium" ∨ getSeverity n = "high") := by
  have hlm : ("low" : String) ≠ "medium" := by decide
  have hlh : ("low" : String) ≠ "high" := by decide
  have hml : ("medium" : String) ≠ "low" := by decide
  have hmh : ("medium" : String) ≠ "high" := by decide
  have hhl : ("high" : String) ≠ "low" := by decide
  have hhm : ("high" : String) ≠ "medium" := by decide
  simp only [getSeverity, thresholds]
  split_ifs with h1 h2
  · exact ⟨iff_of_true rfl h1, iff_of_false hlm (by omega),
      iff_of_false hlh (by omega), Or.inl rfl⟩
  · exact ⟨iff_of_false hml (by omega), iff_of_true rfl (by omega),
      iff_of_false hmh (by omega), Or.inr (Or.inl rfl)⟩
  · exact ⟨iff_of_false hhl (by omega), iff_of_false hhm (by omega),
      iff_of_true rfl (by omega), Or.inr (Or.inr rfl)⟩

/-! ### C6: stale selection -/

/-- C6: a selection key matching no entry of the table resolves to `none`
(no detail rendered), for any table. -/
theorem selectedStat_stale_none (l : List BlockStat) (k : String)
    (h : ∀ e ∈ l, e.key ≠ k) : selectedStat l (some k) = none := by
  show (if k = "" then none else statsMapLookup l k) = none
  split_ifs with hk
  · rfl
  · simp only [statsMapLookup, List.find?_eq_none, List.mem_reverse]
    intro x hx
    simpa using h x hx

/-- Witness for C6: looking up the absent key `"b"` yields `none`. -/
theorem selectedStat_stale_none_witness :
    selectedStat [⟨"a", "A", 0, []⟩] (some "b") = none :=
  selectedStat_stale_none [⟨"a", "A", 0, []⟩] "b" (by decide)

/-! ### C7: malformed boundary dataset -/

/-- C7: a missing boundary dataset, or one with an absent feature
collection, aggregates exactly like an empty feature sequence. -/
theorem statsByBlock_malformed_geojson (cs : List Complaint) :
    statsByBlock cs none = statsByBlock cs (some { features := some [] }) ∧
    statsByBlock cs (some { features := none }) =
      statsByBlock cs (some { features := some [] }) := by
  exact ⟨rfl, rfl⟩

/-! ### C8: centroid estimator -/

/-- The coordinate fold of `mapCenter` computes the two sums independently. -/
theorem foldl_coord_sum (cs : List Complaint) (a b : Rat) :
    cs.foldl (fun acc c => (acc.1 + c.lat, acc.2 + c.lng)) (a, b) =
      (a + (cs.map (fun c => c.lat)).sum, b + (cs.map (fun c => c.lng)).sum) := by
  induction cs generalizing a b with
  | nil => simp
  | cons c cs ih => simp [ih, add_assoc]

/-- C8: the centroid is the fixed fallback on an empty record list, and the
independent arithmetic means of `lat` and `lng` otherwise. -/
theorem mapCenter_spec (cs : List Complaint) :
    mapCenter [] = ((20.65 : Rat), (85.6 : Rat)) ∧
    (cs ≠ [] → mapCenter cs =
      ((cs.map (fun c => c.lat)).sum / (cs.length : Rat),
       (cs.map (fun c => c.lng)).sum / (cs.length : Rat))) := by
  constructor
  · rfl
  · intro h
    have hl : ¬ cs.length = 0 := by simpa using h
    unfold mapCenter
    rw [if_neg hl, foldl_coord_sum]
    simp

/-- Witness for C8: records at (20, 85) and (21, 86) average to
(20.5, 85.5). -/
theorem mapCenter_spec_witness :
    mapCenter [(⟨1, none, "", 20, 85⟩ : Complaint), ⟨2, none, "", 21, 86⟩] =
      ((20.5 : Rat), (85.5 : Rat)) := by
  rw [(mapCenter_spec [(⟨1, none, "", 20, 85⟩ : Complaint), ⟨2, none, "", 21, 86⟩]).2
    (by simp)]
  norm_num

/-! ### C10: clicking a polygon with an empty name -/

/-- The click handler's key equals the normalized feature name (the
handler's `|| ""` is absorbed by the normalizer). -/
theorem clickKey_eq (f : Feature) :
    onEachFeatureClickKey f = normalizeBlockName (getBlockNameProp f) := rfl

/-- C10: clicking a polygon whose name normalizes to the empty string stores
the empty-string key, and that state resolves exactly like no selection:
`none`, no modal, no fault. -/
theorem click_empty_name_no_detail (f : Feature) (l : List BlockStat)
    (h : normalizeBlockName (getBlockNameProp f) = "") :
    onEachFeatureClickKey f = "" ∧
    selectedStat l (some (onEachFeatureClickKey f)) = none ∧
    selectedStat l (some (onEachFeatureClickKey f)) = selectedStat l none := by
  have hk : onEachFeatureClickKey f = "" := by rw [clickKey_eq, h]
  refine ⟨hk, ?_, ?_⟩ <;> rw [hk] <;> rfl

/-! ### C3: conservation of complaint counts -/

theorem sumTotal_append (m : List BlockStat) (e : BlockStat) :
    sumTotal (m ++ [e]) = sumTotal m + e.total := by
  simp [sumTotal]

/-- Updating the entry of a present key with a `total`-shift of `k` shifts
the table's sum by `k`. -/
theorem sumTotal_updateEntry (m : List BlockStat) (key : String)
    (g : BlockStat → BlockStat) (k : Nat) (hg : ∀ e, (g e).total = e.total + k)
    (h : hasKey m key = true) :
    sumTotal (updateEntry m key g) = sumTotal m + k := by
  induction m with
  | nil => simp [hasKey] at h
  | cons e rest ih =>
    by_cases he : e.key = key
    · rw [updateEntry, if_pos he]
      simp only [sumTotal, List.map_cons, List.sum_cons, hg]
      omega
    · rw [updateEntry, if_neg he]
      have h' : hasKey rest key = true := by
        simp only [hasKey, List.any_cons, Bool.or_eq_true, beq_iff_eq] at h ⊢
        exact h.resolve_left he
      simp only [sumTotal, List.map_cons, List.sum_cons] at ih ⊢
      rw [ih h']
      omega

theorem sumTotal_pass1Step (m : List BlockStat) (c : Complaint) :
    sumTotal (pass1Step m c) =
      sumTotal m + (if normalizeBlockName c.block = "" then 0 else 1) := by
  have hstep : pass1Step m c =
      if normalizeBlockName c.block = "" then m
      else updateEntry
        (if hasKey m (normalizeBlockName c.block) then m
         else m ++ [{ key := normalizeBlockName c.block, label := c.block.getD "",
                      total := 0, complaints := [] }])
        (normalizeBlockName c.block)
        (fun e => { e with total := e.total + 1, complaints := e.complaints ++ [c] }) := rfl
  rw [hstep]
  by_cases hk : normalizeBlockName c.block = ""
  · rw [if_pos hk, if_pos hk]
    rfl
  · rw [if_neg hk, if_neg hk]
    by_cases hh : hasKey m (normalizeBlockName c.block) = true
    · rw [if_pos hh]
      exact sumTotal_updateEntry m _ _ 1 (fun _ => rfl) hh
    · rw [if_neg (by simpa using hh)]
      rw [sumTotal_updateEntry _ _ _ 1 (fun _ => rfl)
        (by simp [hasKey]), sumTotal_append]
      rfl

theorem sumTotal_foldl_pass1 (cs : List Complaint) (m : List BlockStat) :
    sumTotal (cs.foldl pass1Step m) =
      sumTotal m + cs.countP (fun c => decide (normalizeBlockName c.block ≠ "")) := by
  induction cs generalizing m with
  | nil => simp
  | cons c cs ih =>
    rw [List.foldl_cons, ih, sumTotal_pass1Step, List.countP_cons]
    by_cases hk : normalizeBlockName c.block = ""
    · simp [hk]
    · simp [hk]
      omega

theorem sumTotal_pass2Step (m : List BlockStat) (f : Feature) :
    sumTotal (pass2Step m f) = sumTotal m := by
  have hstep : pass2Step m f =
      if normalizeBlockName (getBlockNameProp f) = "" then m
      else if hasKey m (normalizeBlockName (getBlockNameProp f)) then
        if (getBlockNameProp f).getD "" ≠ "" then
          updateEntry m (normalizeBlockName (getBlockNameProp f))
            (fun e => { e with label := (getBlockNameProp f).getD "" })
        else m
      else
        m ++ [{ key := normalizeBlockName (getBlockNameProp f),
                label := if (getBlockNameProp f).getD "" ≠ ""
                  then (getBlockNameProp f).getD "" else "Unknown block",
                total := 0, complaints := [] }] := rfl
  rw [hstep]
  by_cases hk : normalizeBlockName (getBlockNameProp f) = ""
  · rw [if_pos hk]
  · rw [if_neg hk]
    by_cases hh : hasKey m (normalizeBlockName (getBlockNameProp f)) = true
    · rw [if_pos hh]
      by_cases hr : (getBlockNameProp f).getD "" ≠ ""
      · rw [if_pos hr, sumTotal_updateEntry m (normalizeBlockName (getBlockNameProp f))
          (fun e => { e with label := (getBlockNameProp f).getD "" }) 0 (fun _ => rfl) hh]
        rfl
      · rw [if_neg hr]
    · rw [if_neg (by simpa using hh), sumTotal_append]
      rfl

theorem sumTotal_foldl_pass2 (fs : List Feature) (m : List BlockStat) :
    sumTotal (fs.foldl pass2Step m) = sumTotal m := by
  induction fs generalizing m with
  | nil => rfl
  | cons f fs ih => rw [List.foldl_cons, ih, sumTotal_pass2Step]

/-- Sorting permutes the table, so the sum of totals is unchanged. -/
theorem sumTotal_mergeSort (l : List BlockStat) :
    sumTotal (l.mergeSort statLe) = sumTotal l :=
  List.Perm.sum_eq ((List.mergeSort_perm l statLe).map (fun e => e.total))

/-- C3: the sum of `total` over the aggregator's output equals the number of
input records whose normalized block name is non-empty; records with an
absent or all-whitespace name contribute to no entry. -/
theorem statsByBlock_conservation (cs : List Complaint) (g : Option GeoJson) :
    sumTotal (statsByBlock cs g) =
      cs.countP (fun c => decide (normalizeBlockName c.block ≠ "")) := by
  show sumTotal (((getFeatures g).foldl pass2Step (cs.foldl pass1Step [])).mergeSort statLe) = _
  rw [sumTotal_mergeSort, sumTotal_foldl_pass2, sumTotal_foldl_pass1]
  simp [sumTotal]

/-! ### The table invariant -/

theorem mem_keysOf {m : List BlockStat} {k : String} :
    k ∈ keysOf m ↔ ∃ e ∈ m, e.key = k := by
  simp [keysOf]

theorem keysOf_append (m1 m2 : List BlockStat) :
    keysOf (m1 ++ m2) = keysOf m1 ++ keysOf m2 := by
  simp [keysOf]

/-- With distinct keys, rewriting the first matching entry is a pointwise
map over the table. -/
theorem updateEntry_eq_map (m : List BlockStat) (key : String)
    (g : BlockStat → BlockStat) (h : (keysOf m).Nodup) :
    updateEntry m key g = m.map (fun e => if e.key = key then g e else e) := by
  induction m with
  | nil => rfl
  | cons e rest ih =>
    have h2 : e.key ∉ keysOf rest ∧ (keysOf rest).Nodup := by
      rw [keysOf, List.map_cons, List.nodup_cons] at h
      exact h
    by_cases he : e.key = key
    · rw [updateEntry, if_pos he, List.map_cons, if_pos he]
      have hk : ∀ x ∈ rest, (if x.key = key then g x else x) = x := by
        intro x hx
        rw [if_neg]
        intro hxk
        exact h2.1 (by rw [← hxk.trans he.symm]; exact List.mem_map_of_mem _ hx)
      rw [List.map_congr_left hk]
      simp
    · rw [updateEntry, if_neg he, List.map_cons, if_neg he, ih h2.2]

theorem keysOf_map_ite (m : List BlockStat) (k : String) (g : BlockStat → BlockStat)
    (hg : ∀ e, (g e).key = e.key) :
    keysOf (m.map (fun e => if e.key = k then g e else e)) = keysOf m := by
  simp only [keysOf, List.map_map]
  refine List.map_congr_left (fun e he => ?_)
  by_cases hek : e.key = k
  · simp [Function.comp, hek, hg]
  · simp [Function.comp, hek]

theorem filter_singleton_of_pos {α : Type} {p : α → Bool} {a : α} (h : p a = true) :
    [a].filter p = [a] := by
  simp [List.filter, h]

theorem filter_singleton_of_neg {α : Type} {p : α → Bool} {a : α} (h : p a = false) :
    [a].filter p = [] := by
  simp [List.filter, h]

/-- Pass 1 preserves the table invariant, extending the processed input. -/
theorem Inv_pass1Step (cs : List Complaint) (m : List BlockStat) (c : Complaint)
    (h : Inv cs m) : Inv (cs ++ [c]) (pass1Step m c) := by
  obtain ⟨hnd, hent, hrec⟩ := h
  by_cases hk : normalizeBlockName c.block = ""
  · -- record skipped: table unchanged, the record matches no entry
    have hstep : pass1Step m c = m := by
      unfold pass1Step
      rw [if_pos hk]
    rw [hstep]
    refine ⟨hnd, ?_, ?_⟩
    · intro e he
      obtain ⟨h1, h2, h3, h4⟩ := hent e he
      refine ⟨h1, h2, ?_, h4⟩
      rw [List.filter_append, ← h3, filter_singleton_of_neg
        (by rw [decide_eq_false_iff_not, hk]; exact fun hc => h1 hc.symm)]
      rw [List.append_nil]
    · intro c' hc' hne
      rcases List.mem_append.mp hc' with hin | hin
      · exact hrec c' hin hne
      · rw [List.mem_singleton] at hin
        subst hin
        exact absurd hk hne
  · have hkeypres : ∀ e : BlockStat,
        ((fun e => if e.key = normalizeBlockName c.block
          then { e with total := e.total + 1, complaints := e.complaints ++ [c] }
          else e) e).key = e.key := by
      intro e
      show (if e.key = normalizeBlockName c.block
        then ({ e with total := e.total + 1, complaints := e.complaints ++ [c] } : BlockStat)
        else e).key = e.key
      by_cases hek : e.key = normalizeBlockName c.block
      · rw [if_pos hek]
      · rw [if_neg hek]
    by_cases hh : hasKey m (normalizeBlockName c.block) = true
    · -- existing entry: the record is appended to it
      have hstep : pass1Step m c =
          m.map (fun e => if e.key = normalizeBlockName c.block
            then { e with total := e.total + 1, complaints := e.complaints ++ [c] }
            else e) := by
        have h0 : pass1Step m c = updateEntry
            (if hasKey m (normalizeBlockName c.block) then m
             else m ++ [{ key := normalizeBlockName c.block, label := c.block.getD "",
                          total := 0, complaints := [] }])
            (normalizeBlockName c.block)
            (fun e => { e with total := e.total + 1, complaints := e.complaints ++ [c] }) := by
          unfold pass1Step
          rw [if_neg hk]
        rw [h0, if_pos hh, updateEntry_eq_map _ _ _ hnd]
      rw [hstep]
      refine ⟨?_, ?_, ?_⟩
      · rw [keysOf_map_ite m (normalizeBlockName c.block)
          (fun e => { e with total := e.total + 1, complaints := e.complaints ++ [c] })
          (fun _ => rfl)]
        exact hnd
      · intro e' he'
        obtain ⟨e, he, rfl⟩ := List.mem_map.mp he'
        obtain ⟨h1, h2, h3, h4⟩ := hent e he
        by_cases hek : e.key = normalizeBlockName c.block
        · rw [if_pos hek]
          refine ⟨h1, h2, ?_, ?_⟩
          · show e.complaints ++ [c] =
              (cs ++ [c]).filter (fun c' => decide (normalizeBlockName c'.block = e.key))
            rw [List.filter_append, ← h3, filter_singleton_of_pos
              (by rw [decide_eq_true_eq, hek])]
          · show e.total + 1 = (e.complaints ++ [c]).length
            rw [List.length_append, h4]
            rfl
        · rw [if_neg hek]
          refine ⟨h1, h2, ?_, h4⟩
          rw [List.filter_append, ← h3, filter_singleton_of_neg
            (by rw [decide_eq_false_iff_not]; exact fun hc => hek hc.symm)]
          rw [List.append_nil]
      · intro c' hc' hne
        rcases List.mem_append.mp hc' with hin | hin
        · obtain ⟨e, he, hekey⟩ := hrec c' hin hne
          refine ⟨_, List.mem_map_of_mem _ he, ?_⟩
          rw [hkeypres]
          exact hekey
        · rw [List.mem_singleton] at hin
          subst hin
          obtain ⟨e, he, hekey⟩ := hasKey_iff.mp hh
          refine ⟨_, List.mem_map_of_mem _ he, ?_⟩
          rw [hkeypres]
          exact hekey
    · -- new key: a fresh entry holding exactly this record is appended
      have hnotin : normalizeBlockName c.block ∉ keysOf m := by
        intro hin
        exact hh (hasKey_iff.mpr (mem_keysOf.mp hin))
      have hnd1 : (keysOf (m ++ [{ key := normalizeBlockName c.block,
                                   label := c.block.getD "", total := 0,
                                   complaints := [] }])).Nodup := by
        rw [keysOf_append]
        refine List.Nodup.append hnd (List.nodup_singleton _) ?_
        intro a ha hb
        have hab : a = normalizeBlockName c.block := by simpa [keysOf] using hb
        rw [hab] at ha
        exact hnotin ha
      have hstep : pass1Step m c =
          m ++ [{ key := normalizeBlockName c.block, label := c.block.getD "",
                  total := 1, complaints := [c] }] := by
        have h0 : pass1Step m c = updateEntry
            (if hasKey m (normalizeBlockName c.block) then m
             else m ++ [{ key := normalizeBlockName c.block, label := c.block.getD "",
                          total := 0, complaints := [] }])
            (normalizeBlockName c.block)
            (fun e => { e with total := e.total + 1, complaints := e.complaints ++ [c] }) := by
          unfold pass1Step
          rw [if_neg hk]
        rw [h0, if_neg (by simpa using hh), updateEntry_eq_map _ _ _ hnd1,
          List.map_append]
        congr 1
        · have hme : ∀ x ∈ m, (if x.key = normalizeBlockName c.block
              then { x with total := x.total + 1, complaints := x.complaints ++ [c] }
              else x) = x := by
            intro x hx
            rw [if_neg]
            intro hxk
            exact hnotin (by rw [← hxk]; exact List.mem_map_of_mem _ hx)
          rw [List.map_congr_left hme]
          simp
        · simp
      rw [hstep]
      refine ⟨?_, ?_, ?_⟩
      · rw [keysOf_append]
        refine List.Nodup.append hnd (List.nodup_singleton _) ?_
        intro a ha hb
        have hab : a = normalizeBlockName c.block := by simpa [keysOf] using hb
        rw [hab] at ha
        exact hnotin ha
      · intro e' he'
        rcases List.mem_append.mp he' with he | he
        · obtain ⟨h1, h2, h3, h4⟩ := hent e' he
          refine ⟨h1, h2, ?_, h4⟩
          have hne' : e'.key ≠ normalizeBlockName c.block := by
            intro hc
            exact hnotin (by rw [← hc]; exact List.mem_map_of_mem _ he)
          rw [List.filter_append, ← h3, filter_singleton_of_neg
            (by rw [decide_eq_false_iff_not]; exact fun hc => hne' hc.symm)]
          rw [List.append_nil]
        · rw [List.mem_singleton] at he
          subst he
          refine ⟨hk, raw_ne_of_normalize_ne hk, ?_, rfl⟩
          show [c] = (cs ++ [c]).filter
            (fun c' => decide (normalizeBlockName c'.block = normalizeBlockName c.block))
          have hcs : cs.filter
              (fun c' => decide (normalizeBlockName c'.block = normalizeBlockName c.block)) =
              [] := by
            rw [List.filter_eq_nil_iff]
            intro c' hc'
            rw [decide_eq_true_eq]
            intro hcontra
            obtain ⟨e, he, hekey⟩ := hrec c' hc' (by rw [hcontra]; exact hk)
            exact hnotin (by rw [← hcontra, ← hekey]; exact List.mem_map_of_mem _ he)
          rw [List.filter_append, hcs, filter_singleton_of_pos (by rw [decide_eq_true_eq]),
            List.nil_append]
      · intro c' hc' hne
        rcases List.mem_append.mp hc' with hin | hin
        · obtain ⟨e, he, hekey⟩ := hrec c' hin hne
          exact ⟨e, List.mem_append_left _ he, hekey⟩
        · rw [List.mem_singleton] at hin
          subst hin
          exact ⟨_, List.mem_append_right _ (List.mem_singleton_self _), rfl⟩

theorem keysOf_updateEntry (m : List BlockStat) (key : String)
    (g : BlockStat → BlockStat) (hg : ∀ e, (g e).key = e.key) :
    keysOf (updateEntry m key g) = keysOf m := by
  induction m with
  | nil => rfl
  | cons e rest ih =>
    by_cases he : e.key = key
    · rw [updateEntry, if_pos he]
      simp only [keysOf, List.map_cons]
      rw [hg]
    · rw [updateEntry, if_neg he]
      simp only [keysOf, List.map_cons] at ih ⊢
      rw [ih]

/-- Pass 2 preserves the table invariant: it never touches totals or
complaint lists, and only adds zero-total entries for unseen keys. -/
theorem Inv_pass2Step (cs : List Complaint) (m : List BlockStat) (f : Feature)
    (h : Inv cs m) : Inv cs (pass2Step m f) := by
  obtain ⟨hnd, hent, hrec⟩ := h
  by_cases hk : normalizeBlockName (getBlockNameProp f) = ""
  · have hstep : pass2Step m f = m := by
      unfold pass2Step
      rw [if_pos hk]
    rw [hstep]
    exact ⟨hnd, hent, hrec⟩
  · have hr : (getBlockNameProp f).getD "" ≠ "" := raw_ne_of_normalize_ne hk
    have h0 : pass2Step m f =
        (if hasKey m (normalizeBlockName (getBlockNameProp f)) then
          (if (getBlockNameProp f).getD "" ≠ "" then
            updateEntry m (normalizeBlockName (getBlockNameProp f))
              (fun e => { e with label := (getBlockNameProp f).getD "" })
           else m)
         else m ++ [{ key := normalizeBlockName (getBlockNameProp f),
                      label := if (getBlockNameProp f).getD "" ≠ ""
                        then (getBlockNameProp f).getD "" else "Unknown block",
                      total := 0, complaints := [] }]) := by
      unfold pass2Step
      rw [if_neg hk]
    by_cases hh : hasKey m (normalizeBlockName (getBlockNameProp f)) = true
    · have hkeypres : ∀ e : BlockStat,
          ((fun e => if e.key = normalizeBlockName (getBlockNameProp f)
            then { e with label := (getBlockNameProp f).getD "" }
            else e) e).key = e.key := by
        intro e
        show (if e.key = normalizeBlockName (getBlockNameProp f)
          then ({ e with label := (getBlockNameProp f).getD "" } : BlockStat)
          else e).key = e.key
        by_cases hek : e.key = normalizeBlockName (getBlockNameProp f)
        · rw [if_pos hek]
        · rw [if_neg hek]
      have hstep : pass2Step m f =
          m.map (fun e => if e.key = normalizeBlockName (getBlockNameProp f)
            then { e with label := (getBlockNameProp f).getD "" } else e) := by
        rw [h0, if_pos hh, if_pos hr, updateEntry_eq_map _ _ _ hnd]
      rw [hstep]
      refine ⟨?_, ?_, ?_⟩
      · rw [keysOf_map_ite m (normalizeBlockName (getBlockNameProp f))
          (fun e => { e with label := (getBlockNameProp f).getD "" }) (fun _ => rfl)]
        exact hnd
      · intro e' he'
        obtain ⟨e, he, rfl⟩ := List.mem_map.mp he'
        obtain ⟨h1, h2, h3, h4⟩ := hent e he
        by_cases hek : e.key = normalizeBlockName (getBlockNameProp f)
        · rw [if_pos hek]
          exact ⟨h1, hr, h3, h4⟩
        · rw [if_neg hek]
          exact ⟨h1, h2, h3, h4⟩
      · intro c' hc' hne
        obtain ⟨e, he, hekey⟩ := hrec c' hc' hne
        refine ⟨_, List.mem_map_of_mem _ he, ?_⟩
        rw [hkeypres]
        exact hekey
    · have hnotin : normalizeBlockName (getBlockNameProp f) ∉ keysOf m := by
        intro hin
        exact hh (hasKey_iff.mpr (mem_keysOf.mp hin))
      have hstep : pass2Step m f =
          m ++ [{ key := normalizeBlockName (getBlockNameProp f),
                  label := if (getBlockNameProp f).getD "" ≠ ""
                    then (getBlockNameProp f).getD "" else "Unknown block",
                  total := 0, complaints := [] }] := by
        rw [h0, if_neg (by simpa using hh)]
      rw [hstep]
      refine ⟨?_, ?_, ?_⟩
      · rw [keysOf_append]
        refine List.Nodup.append hnd (List.nodup_singleton _) ?_
        intro a ha hb
        have hab : a = normalizeBlockName (getBlockNameProp f) := by
          simpa [keysOf] using hb
        rw [hab] at ha
        exact hnotin ha
      · intro e' he'
        rcases List.mem_append.mp he' with he | he
        · exact hent e' he
        · rw [List.mem_singleton] at he
          subst he
          refine ⟨hk, ?_, ?_, rfl⟩
          · show (if (getBlockNameProp f).getD "" ≠ ""
              then (getBlockNameProp f).getD "" else "Unknown block") ≠ ""
            rw [if_pos hr]
            exact hr
          · show ([] : List Complaint) = cs.filter
              (fun c' => decide (normalizeBlockName c'.block =
                normalizeBlockName (getBlockNameProp f)))
            symm
            rw [List.filter_eq_nil_iff]
            intro c' hc'
            rw [decide_eq_true_eq]
            intro hcontra
            obtain ⟨e, he, hekey⟩ := hrec c' hc' (by rw [hcontra]; exact hk)
            exact hnotin (by rw [← hcontra, ← hekey]; exact List.mem_map_of_mem _ he)
      · intro c' hc' hne
        obtain ⟨e, he, hekey⟩ := hrec c' hc' hne
        exact ⟨e, List.mem_append_left _ he, hekey⟩

theorem Inv_foldl_pass1 (cs2 cs1 : List Complaint) (m : List BlockStat)
    (h : Inv cs1 m) : Inv (cs1 ++ cs2) (cs2.foldl pass1Step m) := by
  induction cs2 generalizing cs1 m with
  | nil => simpa using h
  | cons c cs2 ih =>
    rw [List.foldl_cons]
    have h2 := ih (cs1 ++ [c]) (pass1Step m c) (Inv_pass1Step cs1 m c h)
    rw [List.append_assoc, List.singleton_append] at h2
    exact h2

/-- After pass 1, the table invariant holds for the whole record input. -/
theorem Inv_pass1 (cs : List Complaint) : Inv cs (cs.foldl pass1Step []) := by
  have h0 : Inv [] ([] : List BlockStat) := by
    refine ⟨by simp [keysOf], by simp, by simp⟩
  simpa using Inv_foldl_pass1 cs [] [] h0

theorem Inv_foldl_pass2 (cs : List Complaint) (fs : List Feature)
    (m : List BlockStat) (h : Inv cs m) : Inv cs (fs.foldl pass2Step m) := by
  induction fs generalizing m with
  | nil => exact h
  | cons f fs ih =>
    rw [List.foldl_cons]
    exact ih (pass2Step m f) (Inv_pass2Step cs m f h)

/-- The invariant is stable under permutation of the table. -/
theorem Inv_perm (cs : List Complaint) {m m' : List BlockStat}
    (hp : m.Perm m') (h : Inv cs m) : Inv cs m' := by
  obtain ⟨hnd, hent, hrec⟩ := h
  refine ⟨?_, ?_, ?_⟩
  · have h2 := hp.map (fun e : BlockStat => e.key)
    exact List.Perm.nodup h2 hnd
  · intro e he
    exact hent e (hp.mem_iff.mpr he)
  · intro c hc hne
    obtain ⟨e, he, hk⟩ := hrec c hc hne
    exact ⟨e, hp.mem_iff.mp he, hk⟩

/-- The aggregator's output satisfies the table invariant. -/
theorem Inv_statsByBlock (cs : List Complaint) (g : Option GeoJson) :
    Inv cs (statsByBlock cs g) := by
  have h1 := Inv_foldl_pass2 cs (getFeatures g) (cs.foldl pass1Step []) (Inv_pass1 cs)
  exact Inv_perm cs (List.mergeSort_perm _ statLe).symm h1

/-! ### Feature keys are covered -/

theorem mem_keys_pass2_self (m : List BlockStat) (f : Feature)
    (hk : normalizeBlockName (getBlockNameProp f) ≠ "") :
    normalizeBlockName (getBlockNameProp f) ∈ keysOf (pass2Step m f) := by
  have h0 : pass2Step m f =
      (if hasKey m (normalizeBlockName (getBlockNameProp f)) then
        (if (getBlockNameProp f).getD "" ≠ "" then
          updateEntry m (normalizeBlockName (getBlockNameProp f))
            (fun e => { e with label := (getBlockNameProp f).getD "" })
         else m)
       else m ++ [{ key := normalizeBlockName (getBlockNameProp f),
                    label := if (getBlockNameProp f).getD "" ≠ ""
                      then (getBlockNameProp f).getD "" else "Unknown block",
                    total := 0, complaints := [] }]) := by
    unfold pass2Step
    rw [if_neg hk]
  rw [h0]
  by_cases hh : hasKey m (normalizeBlockName (getBlockNameProp f)) = true
  · rw [if_pos hh]
    obtain ⟨e, he, hekey⟩ := hasKey_iff.mp hh
    by_cases hr : (getBlockNameProp f).getD "" ≠ ""
    · rw [if_pos hr, keysOf_updateEntry m (normalizeBlockName (getBlockNameProp f))
        (fun e => { e with label := (getBlockNameProp f).getD "" }) (fun _ => rfl)]
      exact mem_keysOf.mpr ⟨e, he, hekey⟩
    · rw [if_neg hr]
      exact mem_keysOf.mpr ⟨e, he, hekey⟩
  · rw [if_neg (by simpa using hh), keysOf_append]
    apply List.mem_append_right
    simp [keysOf]

theorem mem_keys_pass2_mono (m : List BlockStat) (f : Feature) (k : String)
    (h : k ∈ keysOf m) : k ∈ keysOf (pass2Step m f) := by
  by_cases hk : normalizeBlockName (getBlockNameProp f) = ""
  · have hstep : pass2Step m f = m := by
      unfold pass2Step
      rw [if_pos hk]
    rw [hstep]
    exact h
  · have h0 : pass2Step m f =
        (if hasKey m (normalizeBlockName (getBlockNameProp f)) then
          (if (getBlockNameProp f).getD "" ≠ "" then
            updateEntry m (normalizeBlockName (getBlockNameProp f))
              (fun e => { e with label := (getBlockNameProp f).getD "" })
           else m)
         else m ++ [{ key := normalizeBlockName (getBlockNameProp f),
                      label := if (getBlockNameProp f).getD "" ≠ ""
                        then (getBlockNameProp f).getD "" else "Unknown block",
                      total := 0, complaints := [] }]) := by
      unfold pass2Step
      rw [if_neg hk]
    rw [h0]
    by_cases hh : hasKey m (normalizeBlockName (getBlockNameProp f)) = true
    · rw [if_pos hh]
      by_cases hr : (getBlockNameProp f).getD "" ≠ ""
      · rw [if_pos hr, keysOf_updateEntry m (normalizeBlockName (getBlockNameProp f))
          (fun e => { e with label := (getBlockNameProp f).getD "" }) (fun _ => rfl)]
        exact h
      · rw [if_neg hr]
        exact h
    · rw [if_neg (by simpa using hh), keysOf_append]
      exact List.mem_append_left _ h

theorem mem_keys_foldl_pass2_of_mem (fs : List Feature) (m : List BlockStat)
    (k : String) (h : k ∈ keysOf m) : k ∈ keysOf (fs.foldl pass2Step m) := by
  induction fs generalizing m with
  | nil => exact h
  | cons f fs ih =>
    rw [List.foldl_cons]
    exact ih (pass2Step m f) (mem_keys_pass2_mono m f k h)

theorem mem_keys_foldl_pass2 (fs : List Feature) (m : List BlockStat) (f : Feature)
    (hf : f ∈ fs) (hk : normalizeBlockName (getBlockNameProp f) ≠ "") :
    normalizeBlockName (getBlockNameProp f) ∈ keysOf (fs.foldl pass2Step m) := by
  induction fs generalizing m with
  | nil => cases hf
  | cons f0 fs ih =>
    rw [List.foldl_cons]
    rcases List.mem_cons.mp hf with rfl | hf'
    · exact mem_keys_foldl_pass2_of_mem fs _ _ (mem_keys_pass2_self m f hk)
    · exact ih (pass2Step m f0) hf'

/-! ### C4: coverage of boundary-feature keys -/

theorem countP_eq_count_keysOf (l : List BlockStat) (k : String) :
    l.countP (fun e => e.key == k) = (keysOf l).count k := by
  rw [List.count_eq_countP, keysOf, List.countP_map]
  rfl

/-- C4: each distinct non-empty normalized boundary-feature name keys
exactly one output entry; when no record maps to it, that entry has
`total = 0` and an empty record list. -/
theorem statsByBlock_coverage (cs : List Complaint) (g : Option GeoJson)
    (f : Feature) (hf : f ∈ getFeatures g)
    (hk : normalizeBlockName (getBlockNameProp f) ≠ "") :
    (statsByBlock cs g).countP
        (fun e => e.key == normalizeBlockName (getBlockNameProp f)) = 1 ∧
    ((∀ c ∈ cs, normalizeBlockName c.block ≠ normalizeBlockName (getBlockNameProp f)) →
      ∀ e ∈ statsByBlock cs g, e.key = normalizeBlockName (getBlockNameProp f) →
        e.total = 0 ∧ e.complaints = []) := by
  obtain ⟨hnd, hent, hrec⟩ := Inv_statsByBlock cs g
  have hmem2 : normalizeBlockName (getBlockNameProp f) ∈
      keysOf ((getFeatures g).foldl pass2Step (cs.foldl pass1Step [])) :=
    mem_keys_foldl_pass2 (getFeatures g) _ f hf hk
  have hmem : normalizeBlockName (getBlockNameProp f) ∈ keysOf (statsByBlock cs g) := by
    have hp := (List.mergeSort_perm
      ((getFeatures g).foldl pass2Step (cs.foldl pass1Step [])) statLe).symm
    have h2 := hp.map (fun e : BlockStat => e.key)
    exact h2.mem_iff.mp hmem2
  constructor
  · rw [countP_eq_count_keysOf]
    exact List.count_eq_one_of_mem hnd hmem
  · intro hno e he hek
    obtain ⟨h1, h2, h3, h4⟩ := hent e he
    have hfil : cs.filter (fun c => decide (normalizeBlockName c.block = e.key)) = [] := by
      rw [List.filter_eq_nil_iff]
      intro c hc
      rw [decide_eq_true_eq, hek]
      exact hno c hc
    exact ⟨by rw [h4, h3, hfil]; rfl, by rw [h3, hfil]⟩

/-- Witness for C4: the boundary feature `"Hindol"` with no complaints
yields exactly one entry, with zero total and no records. -/
theorem statsByBlock_coverage_witness :
    ((statsByBlock []
        (some { features := some [⟨some [("block_name", "Hindol")]⟩] })).countP
      (fun e => e.key ==
        normalizeBlockName (getBlockNameProp ⟨some [("block_name", "Hindol")]⟩)) = 1) ∧
    ((∀ c ∈ ([] : List Complaint), normalizeBlockName c.block ≠
        normalizeBlockName (getBlockNameProp ⟨some [("block_name", "Hindol")]⟩)) →
      ∀ e ∈ statsByBlock []
        (some { features := some [⟨some [("block_name", "Hindol")]⟩] }),
        e.key = normalizeBlockName (getBlockNameProp ⟨some [("block_name", "Hindol")]⟩) →
        e.total = 0 ∧ e.complaints = []) :=
  statsByBlock_coverage [] (some { features := some [⟨some [("block_name", "Hindol")]⟩] })
    ⟨some [("block_name", "Hindol")]⟩ (by decide) (by decide)

/-! ### C9: non-empty keys and labels; the fallback label is dead code -/

theorem pass2Step_eq_NF (m : List BlockStat) (f : Feature) :
    pass2Step m f = pass2StepNF m f := by
  have h0 : pass2Step m f =
      (if normalizeBlockName (getBlockNameProp f) = "" then m
       else if hasKey m (normalizeBlockName (getBlockNameProp f)) then
         (if (getBlockNameProp f).getD "" ≠ "" then
           updateEntry m (normalizeBlockName (getBlockNameProp f))
             (fun e => { e with label := (getBlockNameProp f).getD "" })
          else m)
       else m ++ [{ key := normalizeBlockName (getBlockNameProp f),
                    label := if (getBlockNameProp f).getD "" ≠ ""
                      then (getBlockNameProp f).getD "" else "Unknown block",
                    total := 0, complaints := [] }]) := rfl
  have h1 : pass2StepNF m f =
      (if normalizeBlockName (getBlockNameProp f) = "" then m
       else if hasKey m (normalizeBlockName (getBlockNameProp f)) then
         (if (getBlockNameProp f).getD "" ≠ "" then
           updateEntry m (normalizeBlockName (getBlockNameProp f))
             (fun e => { e with label := (getBlockNameProp f).getD "" })
          else m)
       else m ++ [{ key := normalizeBlockName (getBlockNameProp f),
                    label := (getBlockNameProp f).getD "",
                    total := 0, complaints := [] }]) := rfl
  rw [h0, h1]
  by_cases hk : normalizeBlockName (getBlockNameProp f) = ""
  · rw [if_pos hk, if_pos hk]
  · have hr : (getBlockNameProp f).getD "" ≠ "" := raw_ne_of_normalize_ne hk
    rw [if_neg hk, if_neg hk]
    by_cases hh : hasKey m (normalizeBlockName (getBlockNameProp f)) = true
    · rw [if_pos hh, if_pos hh]
    · rw [if_neg hh, if_neg hh, if_pos hr]

theorem statsByBlock_eq_NF (cs : List Complaint) (g : Option GeoJson) :
    statsByBlock cs g = statsByBlockNF cs g := by
  have h : pass2Step = pass2StepNF := by
    funext m f
    exact pass2Step_eq_NF m f
  unfold statsByBlock statsByBlockNF
  rw [h]

/-- C9: every output entry has a non-empty key and a non-empty label, and
the aggregator is unchanged when the `"Unknown block"` fallback is removed
from the pass-2 creation branch: that fallback is unreachable. -/
theorem statsByBlock_labels_nonempty (cs : List Complaint) (g : Option GeoJson) :
    (∀ e ∈ statsByBlock cs g, e.key ≠ "" ∧ e.label ≠ "") ∧
    statsByBlock cs g = statsByBlockNF cs g := by
  refine ⟨?_, statsByBlock_eq_NF cs g⟩
  intro e he
  obtain ⟨-, hent, -⟩ := Inv_statsByBlock cs g
  obtain ⟨h1, h2, -, -⟩ := hent e he
  exact ⟨h1, h2⟩

/-! ### C2: output ordering -/

theorem localeCompare_nonpos_iff (a b : String) :
    localeCompare a b ≤ 0 ↔ a ≤ b := by
  unfold localeCompare
  by_cases h1 : a < b
  · rw [if_pos h1]
    simp [le_of_lt h1]
  · rw [if_neg h1]
    by_cases h2 : b < a
    · rw [if_pos h2]
      exact iff_of_false (by norm_num) (not_le.mpr h2)
    · rw [if_neg h2]
      exact iff_of_true le_rfl (le_of_not_lt h2)

theorem compareStats_nonpos_iff (a b : BlockStat) :
    compareStats a b ≤ 0 ↔
      (b.total < a.total ∨ (a.total = b.total ∧ a.label ≤ b.label)) := by
  unfold compareStats
  by_cases hd : ((b.total : Int) - (a.total : Int)) ≠ 0
  · rw [if_pos hd]
    constructor
    · intro h
      exact Or.inl (by omega)
    · intro h
      rcases h with h | h
      · omega
      · omega
  · rw [if_neg hd]
    have ht : a.total = b.total := by omega
    rw [localeCompare_nonpos_iff]
    constructor
    · intro h
      exact Or.inr ⟨ht, h⟩
    · intro h
      rcases h with h | h
      · omega
      · exact h.2

theorem statLe_iff (a b : BlockStat) :
    statLe a b = true ↔
      (b.total < a.total ∨ (a.total = b.total ∧ a.label ≤ b.label)) := by
  unfold statLe
  rw [decide_eq_true_eq, compareStats_nonpos_iff]

theorem statLe_trans (a b c : BlockStat) (h1 : statLe a b) (h2 : statLe b c) :
    statLe a c := by
  rw [statLe_iff] at h1 h2 ⊢
  rcases h1 with h1 | ⟨h1e, h1l⟩ <;> rcases h2 with h2 | ⟨h2e, h2l⟩
  · exact Or.inl (by omega)
  · exact Or.inl (by omega)
  · exact Or.inl (by omega)
  · exact Or.inr ⟨by omega, le_trans h1l h2l⟩

theorem statLe_total (a b : BlockStat) : statLe a b || statLe b a := by
  rw [Bool.or_eq_true, statLe_iff, statLe_iff]
  rcases Nat.lt_trichotomy a.total b.total with h | h | h
  · exact Or.inr (Or.inl h)
  · rcases le_total a.label b.label with hl | hl
    · exact Or.inl (Or.inr ⟨h, hl⟩)
    · exact Or.inr (Or.inr ⟨h.symm, hl⟩)
  · exact Or.inl (Or.inl h)

/-- C2: on every adjacent pair of output entries, the total strictly
decreases, or the totals are equal and the labels are ascending under the
locale comparison. -/
theorem statsByBlock_sorted (cs : List Complaint) (g : Option GeoJson) :
    (statsByBlock cs g).Chain' adjacentOrdered := by
  have hp := List.sorted_mergeSort statLe_trans statLe_total
    ((getFeatures g).foldl pass2Step (cs.foldl pass1Step []))
  have hp2 : (((getFeatures g).foldl pass2Step
      (cs.foldl pass1Step [])).mergeSort statLe).Pairwise adjacentOrdered := by
    refine hp.imp (fun hab => ?_)
    rw [statLe_iff] at hab
    rcases hab with h | ⟨he, hl⟩
    · exact Or.inl h
    · exact Or.inr ⟨he, (localeCompare_nonpos_iff _ _).mpr hl⟩
  exact hp2.chain'

/-- Witness for C10: a feature with no properties, clicked over a non-empty
table, selects nothing. -/
theorem click_empty_name_no_detail_witness :
    onEachFeatureClickKey ⟨none⟩ = "" ∧
    selectedStat [⟨"a", "A", 0, []⟩] (some (onEachFeatureClickKey ⟨none⟩)) = none ∧
    selectedStat [⟨"a", "A", 0, []⟩] (some (onEachFeatureClickKey ⟨none⟩)) =
      selectedStat [⟨"a", "A", 0, []⟩] none :=
  click_empty_name_no_detail ⟨none⟩ [⟨"a", "A", 0, []⟩] (by decide)

end Hitmap
